import Mathlib

/-!
Shallow embedding of `env_sync.py` (BuildCLI): a cross-platform
environment-variable sync tool.  Shell profile files are modelled as lists
of characters, the file system as a partial map from path strings to file
contents, and the Windows registry (one hive) as an association list.
Python string primitives (`strip`, `split`, substring search, line
iteration) are embedded as structurally recursive functions on `List Char`.
-/

namespace EnvSync

/-- Python whitespace characters recognised by `str.strip()`. -/
def wsChar (c : Char) : Bool :=
  c = ' ' || c = '\t' || c = '\n' || c = '\r' || c = Char.ofNat 11 || c = Char.ofNat 12

/-- The double-quote character. -/
def dq : Char := Char.ofNat 34

/-- The single-quote character. -/
def sq : Char := Char.ofNat 39

/-- Python `str.strip(chars)`: drop characters satisfying `p` from both ends. -/
def pyStripP (p : Char → Bool) (l : List Char) : List Char :=
  ((l.dropWhile p).reverse.dropWhile p).reverse

/-- Python `str.strip()` (default whitespace stripping). -/
def pyStrip (l : List Char) : List Char := pyStripP wsChar l

/-- Embeds `value.strip('"').strip("'")`: all leading/trailing double quotes
are removed, then all leading/trailing single quotes. -/
def stripQuotes (l : List Char) : List Char :=
  pyStripP (fun c => c = sq) (pyStripP (fun c => c = dq) l)

/-- Python `str.lower()` (ASCII lowering suffices for the inputs used). -/
def pyLower (l : List Char) : List Char := l.map Char.toLower

/-- `leadsWith pat l` = Python `l.startswith(pat)`. -/
def leadsWith : List Char → List Char → Bool
  | [], _ => true
  | _ :: _, [] => false
  | a :: as, b :: bs => a = b && leadsWith as bs

/-- `containsSub pat l` = Python `pat in l` (substring containment). -/
def containsSub (pat : List Char) : List Char → Bool
  | [] => leadsWith pat []
  | c :: t => leadsWith pat (c :: t) || containsSub pat t

/-- Python file iteration / `readlines()`: split into lines, each line
keeping its terminating newline; a final segment with no newline is kept
as a last line. -/
def pyLines : List Char → List (List Char)
  | [] => []
  | c :: t =>
    if c = '\n' then ['\n'] :: pyLines t
    else
      match pyLines t with
      | [] => [[c]]
      | l :: ls => (c :: l) :: ls

/-- Python `remainder.split('=', 1)`: `none` when no `'='` occurs, otherwise
the parts before and after the first `'='`. -/
def splitOnceEq : List Char → Option (List Char × List Char)
  | [] => none
  | c :: t =>
    if c = '=' then some ([], t)
    else
      match splitOnceEq t with
      | none => none
      | some (a, b) => some (c :: a, b)

/-- Python `choice.split(',')`. -/
def splitComma : List Char → List (List Char)
  | [] => [[]]
  | c :: t =>
    if c = ',' then [] :: splitComma t
    else
      match splitComma t with
      | [] => [[c]]
      | l :: ls => (c :: l) :: ls

/-- The literal `"export "` that every managed line starts with. -/
def exportHead : List Char := "export ".toList

/-- The literal `f"export {key}="` searched for by `variable_exists_in_shell_rc`
and matched by `remove_variable_from_shell_rc`. -/
def exportPattern (key : String) : List Char :=
  exportHead ++ key.toList ++ ['=']

/-- Python dict assignment `d[k] = v`: update in place when the key is
present, otherwise append at the end. -/
def dictInsert : List (String × String) → String → String → List (String × String)
  | [], k, v => [(k, v)]
  | (k0, v0) :: t, k, v =>
    if k0 = k then (k0, v) :: t else (k0, v0) :: dictInsert t k v

/-- Python dict lookup `d[k]` (as an option). -/
def dictLookup : List (String × String) → String → Option String
  | [], _ => none
  | (k0, v0) :: t, k => if k0 = k then some v0 else dictLookup t k

/-- File system state: maps a path to the file contents, `none` when the
file does not exist (or cannot be read). -/
def FS : Type := String → Option (List Char)

/-- The file system with no files. -/
def emptyFS : FS := fun _ => none

/-- Overwrite (or create) one file. -/
def fsUpdate (fs : FS) (path : String) (c : List Char) : FS :=
  fun q => if q = path then some c else fs q

/-- `EnvironmentVariableManager.get_shell_rc_file`: on Darwin, prefer
`~/.zshrc` when the `SHELL` environment value mentions `zsh`; in every
other case `~/.bashrc`. -/
def getShellRcFile (platformSystem shellEnv : String) : String :=
  if platformSystem = "Darwin" then
    if containsSub "zsh".toList shellEnv.toList then "~/.zshrc" else "~/.bashrc"
  else "~/.bashrc"

/-- `EnvironmentVariableManager.variable_exists_in_shell_rc`: a pure
substring search for `f"export {key}="` in the file contents; a missing or
unreadable file yields `false`. -/
def variableExistsInShellRc (contents : Option (List Char)) (key : String) : Bool :=
  match contents with
  | none => false
  | some cs => containsSub (exportPattern key) cs

/-- The loop body of `export_variables`: strip the line, require the
`"export "` head, split the remainder at the first `'='`, strip the name,
strip whitespace and then quote characters from the value. `none` for a
line that contributes nothing. -/
def parseExportLine (l : List Char) : Option (String × String) :=
  let s := pyStrip l
  if leadsWith exportHead s then
    match splitOnceEq (s.drop exportHead.length) with
    | none => none
    | some (n, v) => some ((pyStrip n).asString, (stripQuotes (pyStrip v)).asString)
  else none

/-- The `keys is None or var_name in keys` filter of `export_variables`. -/
def keyAllowed (keys : Option (List String)) (k : String) : Bool :=
  match keys with
  | none => true
  | some ks => ks.contains k

/-- One iteration of the `export_variables` loop over an accumulator dict. -/
def exportStep (keys : Option (List String)) (acc : List (String × String))
    (l : List Char) : List (String × String) :=
  match parseExportLine l with
  | none => acc
  | some (n, v) => if keyAllowed keys n then dictInsert acc n v else acc

/-- The `export_variables` loop over the file's lines. -/
def exportFromLines (ls : List (List Char)) (keys : Option (List String)) :
    List (String × String) :=
  ls.foldl (exportStep keys) []

/-- `EnvironmentVariableManager.export_variables`: read the rc file selected
by `get_shell_rc_file` and fold the parsing loop over its lines; a missing
file yields the empty dict. -/
def exportVariables (fs : FS) (platformSystem shellEnv : String)
    (keys : Option (List String)) : List (String × String) :=
  match fs (getShellRcFile platformSystem shellEnv) with
  | none => []
  | some cs => exportFromLines (pyLines cs) keys

/-- `LinuxEnvironmentVariableManager.set_variable`: append
`f"\nexport {key}={value}"` to `~/.bashrc` (append mode creates the file
when missing). -/
def linuxSetVariable (fs : FS) (key value : String) : FS :=
  fsUpdate fs "~/.bashrc"
    (((fs "~/.bashrc").getD []) ++ '\n' :: (exportPattern key ++ value.toList))

/-- `MacOSenvironmentVariableManager.set_variable`: append
`f"\nexport {key}={value}"` to `~/.zshrc` unconditionally (the path is
hard-coded in the source; `get_shell_rc_file` is not consulted). -/
def macosSetVariable (fs : FS) (key value : String) : FS :=
  fsUpdate fs "~/.zshrc"
    (((fs "~/.zshrc").getD []) ++ '\n' :: (exportPattern key ++ value.toList))

/-- `LinuxEnvironmentVariableManager.remove_variable_from_shell_rc`: read all
lines and write back only those that do not start with `f"export {key}="`.
The boolean reports whether the error handler ran (file unreadable); the
contents are unchanged in that case. -/
def removeVariableFromShellRc (contents : Option (List Char)) (key : String) :
    Option (List Char) × Bool :=
  match contents with
  | none => (none, true)
  | some cs =>
    (some ((pyLines cs).filter (fun l => !leadsWith (exportPattern key) l)).flatten, false)

/-- One registry hive (`Environment` under the selected root) as an
association list of value names to string data. -/
def Registry : Type := List (String × String)

/-- `winreg.DeleteValue`: `none` models the `FileNotFoundError` raised when
the value name is absent. -/
def winregDeleteValue (reg : Registry) (key : String) : Option Registry :=
  if (dictLookup reg key).isSome then some (reg.filter (fun p => p.1 ≠ key)) else none

/-- `WindowsEnvironmentVariableManager.delete_variable` for the hive selected
by `system`: any raised error (missing value, invalid `system` argument) is
caught by the surrounding `except` and printed; the boolean reports whether
that error handler ran.  The function always returns (never fatal). -/
def windowsDeleteVariable (reg : Registry) (key : String) (system : String) :
    Registry × Bool :=
  if system = "user" || system = "system" then
    match winregDeleteValue reg key with
    | some reg2 => (reg2, false)
    | none => (reg, true)
  else (reg, true)

/-- The backend managers produced by `get_environment_variable_manager`. -/
inductive Manager : Type
  | windows : Manager
  | linux : Manager
  | macos : Manager
deriving DecidableEq

/-- `get_environment_variable_manager`: dispatch on `platform.system()`;
any other identifier raises `ValueError` (the spec's
`UnsupportedPlatformError`). -/
def getEnvironmentVariableManager (operationalSystem : String) :
    Except String Manager :=
  if operationalSystem = "Windows" then .ok .windows
  else if operationalSystem = "Linux" then .ok .linux
  else if operationalSystem = "Darwin" then .ok .macos
  else .error ("Unsupported operating system: " ++ operationalSystem)

/-- A store call made by the apply flow. -/
inductive Op : Type
  | del (key : String) : Op
  | set (key value : String) : Op
deriving DecidableEq

/-- The existence-probe loop of `interactive_mode`: collect in order the
keys of the variable set that already exist in the rc file. -/
def probeExisting (fs : FS) (rcFile : String) (envVars : List (String × String)) :
    List String :=
  (envVars.map Prod.fst).filter (fun k => variableExistsInShellRc (fs rcFile) k)

/-- `[k.strip() for k in overwrite_choice.split(",") if k.strip()]`. -/
def parseOverwriteChoice (choice : String) : List String :=
  ((splitComma choice.toList).map (fun k => (pyStrip k).asString)).filter
    (fun k => k ≠ "")

/-- One delete call of the apply flow against the file system. -/
def delStep (rcFile : String) (f : FS) (k : String) : FS :=
  match (removeVariableFromShellRc (f rcFile) k).1 with
  | some c => fsUpdate f rcFile c
  | none => f

/-- The delete loop of the apply flow, threading the file system and the
trace of store calls. -/
def runDeletes (rcFile : String) (st : FS × List Op) (ks : List String) :
    FS × List Op :=
  ks.foldl (fun st k => (delStep rcFile st.1 k, st.2 ++ [Op.del k])) st

/-- The set loop of the apply flow (Linux manager), threading the file
system and the trace of store calls. -/
def runSets (st : FS × List Op) (envVars : List (String × String)) :
    FS × List Op :=
  envVars.foldl (fun st p => (linuxSetVariable st.1 p.1 p.2, st.2 ++ [Op.set p.1 p.2])) st

/-- `input(...).strip().lower() in ("y", "yes")`. -/
def isYes (ans : String) : Bool :=
  pyLower (pyStrip ans.toList) = "y".toList || pyLower (pyStrip ans.toList) = "yes".toList

/-- The conflict-resolution-and-apply part of `interactive_mode` (lines
255-280), for the shell backend with the Linux manager: probe the existing
keys; when some exist, either keep them all (overwrite-all answered yes, or
the explicit choice is the literal `all`) or replace them by the parsed
explicit list, aborting (`none`) when that list is empty; delete the chosen
keys; finally set every variable of the set.  Returns the final file system
and the trace of store calls. -/
def applyFlow (fs : FS) (shellEnv : String) (envVars : List (String × String))
    (ansOverwriteAll ansChoice : String) : Option (FS × List Op) :=
  let rcFile := getShellRcFile "Linux" shellEnv
  let existing0 := probeExisting fs rcFile envVars
  if existing0.isEmpty then
    some (runSets (fs, []) envVars)
  else
    if isYes ansOverwriteAll then
      some (runSets (runDeletes rcFile (fs, []) existing0) envVars)
    else
      let existing1 :=
        if pyLower ansChoice.toList = "all".toList then existing0
        else parseOverwriteChoice ansChoice
      if existing1.isEmpty then none
      else some (runSets (runDeletes rcFile (fs, []) existing1) envVars)

/-! ### Basic lemmas about the embedded string primitives -/

theorem asString_toList (s : String) : s.toList.asString = s := by
  cases s; rfl

theorem pyLines_ne_nil (c : Char) (t : List Char) : pyLines (c :: t) ≠ [] := by
  unfold pyLines
  by_cases hc : c = '\n'
  · simp [hc]
  · simp only [if_neg hc]
    cases pyLines t <;> simp

theorem pyLines_eq_nil_iff (l : List Char) : pyLines l = [] ↔ l = [] := by
  cases l with
  | nil => simp [pyLines]
  | cons c t => simp [pyLines_ne_nil c t]

theorem pyLines_nl_cons (t : List Char) : pyLines ('\n' :: t) = ['\n'] :: pyLines t := rfl

theorem pyLines_cons_ne (a : Char) (t l : List Char) (ls : List (List Char))
    (ha : a ≠ '\n') (h : pyLines t = l :: ls) :
    pyLines (a :: t) = (a :: l) :: ls := by
  unfold pyLines
  rw [if_neg ha, h]

theorem pyLines_singleton_ne (a : Char) (ha : a ≠ '\n') : pyLines [a] = [[a]] := by
  unfold pyLines
  rw [if_neg ha]
  rfl

theorem pyLines_flatten (c : List Char) : (pyLines c).flatten = c := by
  induction c with
  | nil => rfl
  | cons a t ih =>
    by_cases ha : a = '\n'
    · subst ha; rw [pyLines_nl_cons]; simpa using ih
    · cases h : pyLines t with
      | nil =>
        have ht : t = [] := (pyLines_eq_nil_iff t).mp h
        subst ht
        rw [pyLines_singleton_ne a ha]
        rfl
      | cons l ls =>
        rw [pyLines_cons_ne a t l ls ha h]
        have : (l :: ls).flatten = t := by rw [← h]; exact ih
        simp only [List.flatten_cons] at this ⊢
        simpa using this

theorem pyLines_append_nl (x y : List Char) :
    pyLines (x ++ ['\n'] ++ y) = pyLines (x ++ ['\n']) ++ pyLines y := by
  induction x with
  | nil => simp [pyLines_nl_cons, show pyLines ([] : List Char) = [] from rfl]
  | cons a x ih =>
    have e1 : (a :: x) ++ ['\n'] ++ y = a :: (x ++ ['\n'] ++ y) := by simp
    have e2 : (a :: x) ++ ['\n'] = a :: (x ++ ['\n']) := by simp
    rw [e1, e2]
    by_cases ha : a = '\n'
    · subst ha
      rw [pyLines_nl_cons, pyLines_nl_cons, ih]
      rfl
    · cases h : pyLines (x ++ ['\n']) with
      | nil =>
        exact absurd ((pyLines_eq_nil_iff _).mp h) (by cases x <;> simp)
      | cons l ls =>
        have hx : pyLines (x ++ ['\n'] ++ y) = l :: (ls ++ pyLines y) := by
          rw [ih, h]; rfl
        rw [pyLines_cons_ne a _ _ _ ha hx, pyLines_cons_ne a _ _ _ ha h]
        rfl

theorem pyLines_wfLine (l : List Char) (hne : l ≠ []) (hd : '\n' ∉ l.dropLast) :
    pyLines l = [l] := by
  induction l with
  | nil => exact absurd rfl hne
  | cons a t ih =>
    cases t with
    | nil =>
      by_cases ha : a = '\n'
      · subst ha; rw [pyLines_nl_cons]; rfl
      · exact pyLines_singleton_ne a ha
    | cons b u =>
      have hdrop : a :: (b :: u).dropLast = (a :: b :: u).dropLast := by
        simp [List.dropLast_cons₂]
      have ha : a ≠ '\n' := by
        intro h; apply hd; rw [← hdrop, h]; exact List.mem_cons_self _ _
      have hd2 : '\n' ∉ (b :: u).dropLast := by
        intro h; apply hd; rw [← hdrop]; exact List.mem_cons_of_mem _ h
      have ih2 : pyLines (b :: u) = [b :: u] := ih (by simp) hd2
      exact pyLines_cons_ne a _ _ _ ha ih2

theorem pyLines_no_nl (l : List Char) (hne : l ≠ []) (h : '\n' ∉ l) :
    pyLines l = [l] :=
  pyLines_wfLine l hne (fun hm => h (List.dropLast_sublist l |>.mem hm))

theorem pyLines_cons_nl (m y : List Char) (hm : '\n' ∉ m) :
    pyLines (m ++ '\n' :: y) = (m ++ ['\n']) :: pyLines y := by
  induction m with
  | nil => simp [pyLines_nl_cons]
  | cons a t ih =>
    have ha : a ≠ '\n' := fun h => hm (h ▸ List.mem_cons_self _ _)
    have ht : '\n' ∉ t := fun h => hm (List.mem_cons_of_mem _ h)
    have e1 : (a :: t) ++ '\n' :: y = a :: (t ++ '\n' :: y) := by simp
    rw [e1, pyLines_cons_ne a _ _ _ ha (ih ht)]
    rfl

theorem leadsWith_self_append (a b : List Char) : leadsWith a (a ++ b) = true := by
  induction a with
  | nil => rfl
  | cons c t ih => simp [leadsWith, ih]

theorem leadsWith_no_nl (pat x y : List Char) (h : '\n' ∉ pat) :
    leadsWith pat (x ++ '\n' :: y) = leadsWith pat (x ++ ['\n']) := by
  induction pat generalizing x with
  | nil => rfl
  | cons p ps ih =>
    have hp : p ≠ '\n' := fun hh => h (hh ▸ List.mem_cons_self _ _)
    have hps : '\n' ∉ ps := fun hh => h (List.mem_cons_of_mem _ hh)
    cases x with
    | nil => simp [leadsWith, hp]
    | cons a t => simp [leadsWith, ih t hps]

theorem containsSub_nil_false (p : Char) (ps : List Char) :
    containsSub (p :: ps) [] = false := rfl

theorem containsSub_split (pat x y : List Char) (hne : pat ≠ [])
    (h : '\n' ∉ pat) :
    containsSub pat (x ++ '\n' :: y) =
      (containsSub pat (x ++ ['\n']) || containsSub pat y) := by
  obtain ⟨p, ps, rfl⟩ : ∃ p ps, pat = p :: ps := by
    cases pat with
    | nil => exact absurd rfl hne
    | cons p ps => exact ⟨p, ps, rfl⟩
  have hp : p ≠ '\n' := fun hh => h (hh ▸ List.mem_cons_self _ _)
  induction x with
  | nil =>
    simp only [List.nil_append]
    show (leadsWith (p :: ps) ('\n' :: y) || containsSub (p :: ps) y) = _
    have h1 : leadsWith (p :: ps) ('\n' :: y) = false := by
      simp [leadsWith, hp]
    have h2 : containsSub (p :: ps) ['\n'] = false := by
      simp [containsSub, leadsWith, hp]
    rw [h1, h2]
  | cons a t ih =>
    have e1 : (a :: t) ++ '\n' :: y = a :: (t ++ '\n' :: y) := by simp
    have e2 : (a :: t) ++ ['\n'] = a :: (t ++ ['\n']) := by simp
    rw [e1, e2]
    show (leadsWith (p :: ps) (a :: (t ++ '\n' :: y)) || containsSub (p :: ps) (t ++ '\n' :: y)) = _
    rw [show a :: (t ++ '\n' :: y) = (a :: t) ++ '\n' :: y by simp,
      leadsWith_no_nl (p :: ps) (a :: t) y h, ih]
    show _ = (leadsWith (p :: ps) (a :: (t ++ ['\n'])) || containsSub (p :: ps) (t ++ ['\n']) || containsSub (p :: ps) y)
    rw [show (a :: t) ++ ['\n'] = a :: (t ++ ['\n']) by simp]
    rw [Bool.or_assoc]

/-- A well-formed line: nonempty, with a newline allowed only as the final
character. -/
def wfLine (l : List Char) : Prop := l ≠ [] ∧ '\n' ∉ l.dropLast

/-- The shape invariant of `pyLines` output: every line is well formed and
every line other than the last ends with a newline. -/
def chainLines : List (List Char) → Prop
  | [] => True
  | l :: ls => wfLine l ∧ (ls ≠ [] → l.getLast? = some '\n') ∧ chainLines ls

theorem pyLines_chain (c : List Char) : chainLines (pyLines c) := by
  induction c with
  | nil => trivial
  | cons a t ih =>
    by_cases ha : a = '\n'
    · subst ha
      rw [pyLines_nl_cons]
      exact ⟨⟨by simp, by simp⟩, fun _ => rfl, ih⟩
    · cases h : pyLines t with
      | nil =>
        rw [(pyLines_eq_nil_iff t).mp h, pyLines_singleton_ne a ha]
        exact ⟨⟨by simp, by simp⟩, by simp, trivial⟩
      | cons l ls =>
        rw [pyLines_cons_ne a t l ls ha h]
        rw [h] at ih
        obtain ⟨⟨hl1, hl2⟩, hterm, hrest⟩ := ih
        refine ⟨⟨by simp, ?_⟩, ?_, hrest⟩
        · rw [List.dropLast_cons_of_ne_nil hl1]
          intro hm
          rcases List.mem_cons.mp hm with h1 | h1
          · exact ha h1.symm
          · exact hl2 h1
        · intro hls
          cases l with
          | nil => exact absurd rfl hl1
          | cons b u =>
            rw [List.getLast?_cons_cons]
            exact hterm hls

theorem chainLines_tail (l : List Char) (ls : List (List Char))
    (h : chainLines (l :: ls)) : chainLines ls := h.2.2

theorem chainLines_filter (q : List Char → Bool) (ls : List (List Char))
    (h : chainLines ls) : chainLines (ls.filter q) := by
  induction ls with
  | nil => trivial
  | cons l ls ih =>
    obtain ⟨hwf, hterm, hrest⟩ := h
    rw [List.filter_cons]
    by_cases hq : q l
    · simp only [hq, if_pos]
      refine ⟨hwf, ?_, ih hrest⟩
      intro hne
      apply hterm
      intro hnil
      rw [hnil] at hne
      simp at hne
    · simp only [hq]
      simpa using ih hrest

theorem pyLines_flatten_of_chain (ls : List (List Char)) (h : chainLines ls) :
    pyLines ls.flatten = ls := by
  induction ls with
  | nil => rfl
  | cons l ls ih =>
    obtain ⟨⟨hne, hdrop⟩, hterm, hrest⟩ := h
    cases ls with
    | nil =>
      show pyLines (l ++ [].flatten) = [l]
      simpa using pyLines_wfLine l hne hdrop
    | cons l2 ls2 =>
      have hlast : l.getLast? = some '\n' := hterm (by simp)
      have hdecomp : l.dropLast ++ ['\n'] = l := by
        have h1 := List.dropLast_append_getLast hne
        have h2 : l.getLast hne = '\n' := by
          rw [List.getLast?_eq_getLast l hne] at hlast
          exact Option.some_inj.mp hlast
        rw [h2] at h1
        exact h1
      have e1 : (l :: l2 :: ls2).flatten = l.dropLast ++ '\n' :: (l2 :: ls2).flatten := by
        rw [List.flatten_cons, ← hdecomp]
        simp
      rw [e1, pyLines_cons_nl _ _ hdrop, hdecomp, ih hrest]

theorem containsSub_flatten_chain (pat : List Char) (ls : List (List Char))
    (hne : pat ≠ []) (hnl : '\n' ∉ pat) (h : chainLines ls) :
    containsSub pat ls.flatten = ls.any (fun l => containsSub pat l) := by
  induction ls with
  | nil =>
    obtain ⟨p, ps, rfl⟩ : ∃ p ps, pat = p :: ps := by
      cases pat with
      | nil => exact absurd rfl hne
      | cons p ps => exact ⟨p, ps, rfl⟩
    rfl
  | cons l ls ih =>
    obtain ⟨⟨hlne, hdrop⟩, hterm, hrest⟩ := h
    cases ls with
    | nil => simp
    | cons l2 ls2 =>
      have hlast : l.getLast? = some '\n' := hterm (by simp)
      have hdecomp : l.dropLast ++ ['\n'] = l := by
        have h1 := List.dropLast_append_getLast hlne
        have h2 : l.getLast hlne = '\n' := by
          rw [List.getLast?_eq_getLast l hlne] at hlast
          exact Option.some_inj.mp hlast
        rw [h2] at h1
        exact h1
      have e1 : (l :: l2 :: ls2).flatten = l.dropLast ++ '\n' :: (l2 :: ls2).flatten := by
        rw [List.flatten_cons, ← hdecomp]
        simp
      rw [e1, containsSub_split pat _ _ hne hnl, hdecomp, ih hrest]
      simp

theorem splitOnceEq_append (a b : List Char) (h : '=' ∉ a) :
    splitOnceEq (a ++ '=' :: b) = some (a, b) := by
  induction a with
  | nil => simp [splitOnceEq]
  | cons c t ih =>
    have hc : c ≠ '=' := fun hh => h (hh ▸ List.mem_cons_self _ _)
    have ht : '=' ∉ t := fun hh => h (List.mem_cons_of_mem _ hh)
    have e : (c :: t) ++ '=' :: b = c :: (t ++ '=' :: b) := by simp
    rw [e]
    unfold splitOnceEq
    rw [if_neg hc, ih ht]

theorem splitOnceEq_none_iff (l : List Char) : splitOnceEq l = none ↔ '=' ∉ l := by
  induction l with
  | nil => simp [splitOnceEq]
  | cons c t ih =>
    unfold splitOnceEq
    by_cases hc : c = '='
    · subst hc
      simp
    · rw [if_neg hc]
      cases h : splitOnceEq t with
      | none =>
        have ht : '=' ∉ t := ih.mp h
        simp only [List.mem_cons, not_or]
        constructor
        · intro _; exact ⟨fun hh => hc hh.symm, ht⟩
        · intro _; trivial
      | some p =>
        obtain ⟨x, y⟩ := p
        have ht : '=' ∈ t := by
          by_contra hh
          rw [ih.mpr hh] at h
          exact Option.noConfusion h
        simp [List.mem_cons, ht]

theorem dictLookup_insert (d : List (String × String)) (k v q : String) :
    dictLookup (dictInsert d k v) q = if k = q then some v else dictLookup d q := by
  induction d with
  | nil =>
    by_cases h : k = q <;> simp [dictInsert, dictLookup, h]
  | cons p t ih =>
    obtain ⟨k0, v0⟩ := p
    by_cases h0 : k0 = k
    · subst h0
      by_cases hq : k0 = q <;> simp [dictInsert, dictLookup, hq]
    · by_cases hq : k0 = q
      · subst hq
        have hkq : ¬ k = k0 := fun hh => h0 hh.symm
        simp [dictInsert, dictLookup, h0, hkq]
      · by_cases hkq : k = q
        · subst hkq
          simp [dictInsert, dictLookup, h0, hq, ih]
        · simp [dictInsert, dictLookup, h0, hq, hkq, ih]

theorem dropWhile_cons_neg (p : Char → Bool) (a : Char) (t : List Char)
    (h : p a = false) : (a :: t).dropWhile p = a :: t := by
  simp [List.dropWhile_cons, h]

theorem dropWhile_eq_self_head (p : Char → Bool) (x : List Char) (hx : x ≠ [])
    (h : x.dropWhile p = x) : p (x.head hx) = false := by
  cases x with
  | nil => exact absurd rfl hx
  | cons a t =>
    by_contra hp
    have hp2 : p a = true := by simpa using hp
    rw [List.dropWhile_cons, hp2] at h
    simp only [if_pos] at h
    have hlen := congrArg List.length h
    have hle := List.Sublist.length_le (List.IsSuffix.sublist (List.dropWhile_suffix (l := t) p))
    simp at hlen
    omega

theorem pyStripP_noop (p : Char → Bool) (l : List Char) (hne : l ≠ [])
    (hh : p (l.head hne) = false) (hl : p (l.getLast hne) = false) :
    pyStripP p l = l := by
  unfold pyStripP
  have h1 : l.dropWhile p = l := by
    cases l with
    | nil => exact absurd rfl hne
    | cons a t => exact dropWhile_cons_neg p a t hh
  rw [h1]
  have h2 : l.reverse.dropWhile p = l.reverse := by
    cases hr : l.reverse with
    | nil => rfl
    | cons b u =>
      have hb : b = l.getLast hne := by
        have hrev := List.head?_reverse l
        rw [hr] at hrev
        rw [List.getLast?_eq_getLast l hne] at hrev
        exact Option.some_inj.mp hrev
      rw [← hr]
      rw [hr]
      exact dropWhile_cons_neg p b u (hb ▸ hl)
  rw [h2, List.reverse_reverse]

theorem head_last_of_pyStripP_eq (p : Char → Bool) (l : List Char)
    (h : pyStripP p l = l) (hne : l ≠ []) :
    p (l.head hne) = false ∧ p (l.getLast hne) = false := by
  have hd : l.dropWhile p = l := by
    have h1 : (pyStripP p l).length ≤ (l.dropWhile p).length := by
      unfold pyStripP
      calc (((l.dropWhile p).reverse.dropWhile p).reverse).length
          = ((l.dropWhile p).reverse.dropWhile p).length := List.length_reverse _
        _ ≤ (l.dropWhile p).reverse.length :=
            List.Sublist.length_le (List.IsSuffix.sublist (List.dropWhile_suffix p))
        _ = (l.dropWhile p).length := List.length_reverse _
    have h2 : (l.dropWhile p).length ≤ l.length :=
      List.Sublist.length_le (List.IsSuffix.sublist (List.dropWhile_suffix p))
    rw [h] at h1
    exact List.Sublist.eq_of_length
      (List.IsSuffix.sublist (List.dropWhile_suffix p)) (by omega)
  refine ⟨dropWhile_eq_self_head p l hne hd, ?_⟩
  have hrev : l.reverse.dropWhile p = l.reverse := by
    unfold pyStripP at h
    rw [hd] at h
    have h3 := congrArg List.reverse h
    rwa [List.reverse_reverse] at h3
  have hne2 : l.reverse ≠ [] := by simpa using hne
  have hhead := dropWhile_eq_self_head p l.reverse hne2 hrev
  have heq : l.reverse.head hne2 = l.getLast hne := by
    have e1 := List.head?_eq_head hne2
    have e2 := List.head?_reverse l
    rw [e1, List.getLast?_eq_getLast l hne] at e2
    exact Option.some_inj.mp e2
  rwa [heq] at hhead

theorem exportHead_chars : exportHead = ['e', 'x', 'p', 'o', 'r', 't', ' '] := rfl

theorem exportPattern_ne_nil (k : String) : exportPattern k ≠ [] := by
  unfold exportPattern
  rw [exportHead_chars]
  simp

theorem nl_not_mem_exportPattern (k : String) (hk : '\n' ∉ k.toList) :
    '\n' ∉ exportPattern k := by
  unfold exportPattern
  intro h
  rcases List.mem_append.mp h with h3 | h3
  · rcases List.mem_append.mp h3 with h4 | h4
    · rw [exportHead_chars] at h4
      simp at h4
    · exact hk h4
  · simp at h3

theorem pyStripP_noop_opt (p : Char → Bool) (l : List Char) (a b : Char)
    (hh : l.head? = some a) (hl : l.getLast? = some b)
    (hpa : p a = false) (hpb : p b = false) : pyStripP p l = l := by
  have hne : l ≠ [] := by
    cases l with
    | nil => exact Option.noConfusion hh
    | cons c t => simp
  have e1 : l.head hne = a := by
    rw [List.head?_eq_head hne] at hh
    exact Option.some_inj.mp hh
  have e2 : l.getLast hne = b := by
    rw [List.getLast?_eq_getLast l hne] at hl
    exact Option.some_inj.mp hl
  exact pyStripP_noop p l hne (e1 ▸ hpa) (e2 ▸ hpb)

theorem parseExportLine_pattern (k : String) (v : List Char)
    (hk1 : pyStrip k.toList = k.toList) (hk2 : '=' ∉ k.toList)
    (hv1 : pyStrip v = v) :
    parseExportLine (exportPattern k ++ v) = some (k, (stripQuotes v).asString) := by
  have e0 : exportPattern k ++ v = exportHead ++ (k.toList ++ '=' :: v) := by
    unfold exportPattern
    simp
  have hhead : (exportHead ++ (k.toList ++ '=' :: v)).head? = some 'e' := by
    rw [exportHead_chars]
    rfl
  have hlastb : ∃ b, (exportHead ++ (k.toList ++ '=' :: v)).getLast? = some b ∧
      wsChar b = false := by
    have htail : (exportHead ++ (k.toList ++ '=' :: v)).getLast? = ('=' :: v).getLast? := by
      rw [List.getLast?_append_of_ne_nil _ (by simp)]
      rw [List.getLast?_append_of_ne_nil _ (by simp)]
    cases v with
    | nil => exact ⟨'=', by rw [htail]; rfl, by decide⟩
    | cons c u =>
      have hvne : c :: u ≠ [] := by simp
      have hws := (head_last_of_pyStripP_eq wsChar (c :: u) hv1 hvne).2
      refine ⟨(c :: u).getLast hvne, ?_, hws⟩
      rw [htail, List.getLast?_cons_cons, List.getLast?_eq_getLast (c :: u) hvne]
  obtain ⟨b, hlast, hwsb⟩ := hlastb
  have hstrip : pyStrip (exportHead ++ (k.toList ++ '=' :: v)) =
      exportHead ++ (k.toList ++ '=' :: v) :=
    pyStripP_noop_opt wsChar _ 'e' b hhead hlast (by decide) hwsb
  rw [e0]
  unfold parseExportLine
  simp only [hstrip, leadsWith_self_append, List.drop_left, if_pos,
    splitOnceEq_append _ _ hk2, hk1, hv1, asString_toList]

theorem keyAllowed_none (k : String) : keyAllowed none k = true := rfl

theorem export_after_append (old : List Char) (k V : String)
    (hk1 : pyStrip k.toList = k.toList) (hk2 : '=' ∉ k.toList)
    (hk3 : '\n' ∉ k.toList)
    (hv1 : pyStrip V.toList = V.toList) (hv2 : stripQuotes V.toList = V.toList)
    (hv3 : '\n' ∉ V.toList) :
    dictLookup
      (exportFromLines (pyLines (old ++ '\n' :: (exportPattern k ++ V.toList))) none) k
      = some V := by
  have hnl : '\n' ∉ exportPattern k ++ V.toList := by
    intro h
    rcases List.mem_append.mp h with h1 | h1
    · exact nl_not_mem_exportPattern k hk3 h1
    · exact hv3 h1
  have hlineC : pyLines (exportPattern k ++ V.toList) = [exportPattern k ++ V.toList] :=
    pyLines_no_nl _ (List.append_ne_nil_of_left_ne_nil (exportPattern_ne_nil k) _) hnl
  have hsplit : old ++ '\n' :: (exportPattern k ++ V.toList) =
      (old ++ ['\n']) ++ (exportPattern k ++ V.toList) := by simp
  rw [hsplit]
  unfold exportFromLines
  rw [pyLines_append_nl, hlineC, List.foldl_append]
  show dictLookup
    (exportStep none (List.foldl (exportStep none) [] (pyLines (old ++ ['\n'])))
      (exportPattern k ++ V.toList)) k = some V
  unfold exportStep
  rw [parseExportLine_pattern k V.toList hk1 hk2 hv1, hv2, asString_toList]
  simp only [keyAllowed_none, if_pos, dictLookup_insert, if_pos rfl]

theorem runDeletes_trace (rcFile : String) (ks : List String) (st : FS × List Op) :
    (runDeletes rcFile st ks).2 = st.2 ++ ks.map Op.del := by
  induction ks generalizing st with
  | nil => simp [runDeletes]
  | cons k ks ih =>
    show (runDeletes rcFile (delStep rcFile st.1 k, st.2 ++ [Op.del k]) ks).2 = _
    rw [ih]
    simp

theorem runSets_trace (envVars : List (String × String)) (st : FS × List Op) :
    (runSets st envVars).2 = st.2 ++ envVars.map (fun p => Op.set p.1 p.2) := by
  induction envVars generalizing st with
  | nil => simp [runSets]
  | cons p ps ih =>
    show (runSets (linuxSetVariable st.1 p.1 p.2, st.2 ++ [Op.set p.1 p.2]) ps).2 = _
    rw [ih]
    simp

theorem countP_neg_add_countP (p : List Char → Bool) (l : List (List Char)) :
    l.countP (fun a => !p a) + l.countP p = l.length := by
  induction l with
  | nil => simp
  | cons a t ih =>
    by_cases h : p a <;> simp [List.countP_cons, h] <;> omega

/-! ### Claim theorems -/

/-- C7: the shell-backend existence check is a pure text search for the
literal substring `export K=` in the file contents; consequently, for a
newline-free key, whenever no line of the file contains that substring the
check returns false. -/
theorem claim7_exists_pure_text_search (c : List Char) (k : String) :
    variableExistsInShellRc (some c) k = containsSub (exportPattern k) c ∧
    ('\n' ∉ k.toList →
      (∀ l ∈ pyLines c, containsSub (exportPattern k) l = false) →
      variableExistsInShellRc (some c) k = false) := by
  refine ⟨rfl, ?_⟩
  intro hk h
  show containsSub (exportPattern k) c = false
  have hc : c = (pyLines c).flatten := (pyLines_flatten c).symm
  rw [hc, containsSub_flatten_chain _ _ (exportPattern_ne_nil k)
    (nl_not_mem_exportPattern k hk) (pyLines_chain c)]
  rw [List.any_eq_false]
  intro l hl
  simp [h l hl]

/-- Witness for C7 with concrete contents and key. -/
theorem claim7_exists_pure_text_search_witness :
    variableExistsInShellRc (some ("hello\nworld\n".toList)) "PATH" = false :=
  (claim7_exists_pure_text_search ("hello\nworld\n".toList) "PATH").2
    (by decide) (by decide)

/-- C6 (amended): provided every occurrence of the substring `export K=` in
the profile file lies at the start of a line (and the key is newline-free),
delete followed by exists returns false, and the file's line count after
delete is the original count minus exactly the number of lines carrying the
key's entry (lines starting with `export K=`). -/
theorem claim6_delete_then_exists_amended (c : List Char) (k : String)
    (hk : '\n' ∉ k.toList)
    (hocc : ∀ l ∈ pyLines c, containsSub (exportPattern k) l = true →
      leadsWith (exportPattern k) l = true) :
    variableExistsInShellRc (removeVariableFromShellRc (some c) k).1 k = false ∧
    (pyLines ((removeVariableFromShellRc (some c) k).1.getD [])).length =
      (pyLines c).length -
        (pyLines c).countP (fun l => leadsWith (exportPattern k) l) := by
  have hkept : (removeVariableFromShellRc (some c) k).1 =
      some ((pyLines c).filter (fun l => !leadsWith (exportPattern k) l)).flatten := rfl
  have hchain : chainLines ((pyLines c).filter (fun l => !leadsWith (exportPattern k) l)) :=
    chainLines_filter _ _ (pyLines_chain c)
  have hlines :
      pyLines ((pyLines c).filter (fun l => !leadsWith (exportPattern k) l)).flatten =
        (pyLines c).filter (fun l => !leadsWith (exportPattern k) l) :=
    pyLines_flatten_of_chain _ hchain
  constructor
  · rw [hkept]
    show containsSub (exportPattern k)
      ((pyLines c).filter (fun l => !leadsWith (exportPattern k) l)).flatten = false
    rw [containsSub_flatten_chain _ _ (exportPattern_ne_nil k)
      (nl_not_mem_exportPattern k hk) hchain]
    rw [List.any_eq_false]
    intro l hl
    have hmem : l ∈ pyLines c := List.mem_of_mem_filter hl
    have hflt := List.of_mem_filter hl
    simp only [Bool.not_eq_true'] at hflt
    intro hcontains
    rw [hocc l hmem hcontains] at hflt
    exact Bool.noConfusion hflt
  · rw [hkept]
    show (pyLines ((pyLines c).filter (fun l => !leadsWith (exportPattern k) l)).flatten).length = _
    rw [hlines]
    have h1 : ((pyLines c).filter (fun l => !leadsWith (exportPattern k) l)).length =
        (pyLines c).countP (fun l => !leadsWith (exportPattern k) l) :=
      (List.countP_eq_length_filter _ _).symm
    have h2 := countP_neg_add_countP (fun l => leadsWith (exportPattern k) l) (pyLines c)
    omega

/-- Witness for C6 (amended) on a concrete two-line profile file. -/
theorem claim6_delete_then_exists_amended_witness :
    variableExistsInShellRc
      (removeVariableFromShellRc (some ("export K=1\nfoo\n".toList)) "K").1 "K" = false ∧
    (pyLines ((removeVariableFromShellRc (some ("export K=1\nfoo\n".toList)) "K").1.getD [])).length =
      (pyLines ("export K=1\nfoo\n".toList)).length -
        (pyLines ("export K=1\nfoo\n".toList)).countP
          (fun l => leadsWith (exportPattern "K") l) :=
  claim6_delete_then_exists_amended ("export K=1\nfoo\n".toList) "K"
    (by decide) (by decide)

/-- C9: the store factory is a pure mapping on the platform identifier:
Windows yields the registry backend, Linux the POSIX shell backend, Darwin
the macOS shell backend, and every other platform identifier fails with the
unsupported-platform error, constructing no store. -/
theorem claim9_factory_pure_mapping :
    getEnvironmentVariableManager "Windows" = .ok .windows ∧
    getEnvironmentVariableManager "Linux" = .ok .linux ∧
    getEnvironmentVariableManager "Darwin" = .ok .macos ∧
    ∀ s : String, s ≠ "Windows" → s ≠ "Linux" → s ≠ "Darwin" →
      getEnvironmentVariableManager s =
        .error ("Unsupported operating system: " ++ s) := by
  refine ⟨rfl, rfl, rfl, ?_⟩
  intro s h1 h2 h3
  unfold getEnvironmentVariableManager
  rw [if_neg h1, if_neg h2, if_neg h3]

/-- Witness for C9 at the concrete platform identifier `"Solaris"`. -/
theorem claim9_factory_pure_mapping_witness :
    getEnvironmentVariableManager "Solaris" =
      .error ("Unsupported operating system: " ++ "Solaris") :=
  claim9_factory_pure_mapping.2.2.2 "Solaris" (by decide) (by decide) (by decide)

/-- C4 (code evidence): on Darwin with `SHELL=/bin/bash`, `set_variable`
appends to `~/.zshrc` while `get_shell_rc_file` — the selector used by the
existence check and by export — yields `~/.bashrc`; the freshly set
variable is therefore invisible to `exists` and `export`, contradicting the
claim that every macOS backend operation targets the same selected file. -/
theorem claim4_macos_set_bypasses_profile_selection :
    getShellRcFile "Darwin" "/bin/bash" = "~/.bashrc" ∧
    (macosSetVariable emptyFS "K" "V") "~/.zshrc" = some ("\nexport K=V".toList) ∧
    (macosSetVariable emptyFS "K" "V") "~/.bashrc" = none ∧
    variableExistsInShellRc
      ((macosSetVariable emptyFS "K" "V") (getShellRcFile "Darwin" "/bin/bash")) "K"
      = false ∧
    exportVariables (macosSetVariable emptyFS "K" "V") "Darwin" "/bin/bash" none = [] := by
  refine ⟨by decide, by decide, by decide, by decide, by decide⟩

/-- C8 (amended): delete failures are reported and never fatal, but only the
registry backend reports a missing key: `winreg.DeleteValue` on an absent
value raises, the handler reports it and the hive is unchanged; the shell
backend reports an error only when the profile file cannot be read. -/
theorem claim8_delete_error_reporting :
    (∀ reg : Registry, ∀ k : String, dictLookup reg k = none →
      windowsDeleteVariable reg k "user" = (reg, true)) ∧
    (∀ k : String, removeVariableFromShellRc none k = (none, true)) := by
  constructor
  · intro reg k h
    unfold windowsDeleteVariable winregDeleteValue
    rw [h]
    simp
  · intro k
    rfl

/-- Witness for C8 (amended) at a concrete hive and key. -/
theorem claim8_delete_error_reporting_witness :
    windowsDeleteVariable [("A", "1")] "K" "user" = ([("A", "1")], true) ∧
    removeVariableFromShellRc none "K" = (none, true) :=
  ⟨claim8_delete_error_reporting.1 [("A", "1")] "K" (by decide),
   claim8_delete_error_reporting.2 "K"⟩

/-- C8 counterexample: for the shell backend, deleting a key that does not
exist reports no failure at all — the file is rewritten unchanged and only
the success message is printed — refuting the claim that delete fails with
a reported `StoreDeleteError` whenever the key does not exist on both
backends. -/
theorem claim8_counterexample :
    variableExistsInShellRc (some ("export A=1\n".toList)) "K" = false ∧
    removeVariableFromShellRc (some ("export A=1\n".toList)) "K" =
      (some ("export A=1\n".toList), false) := by
  refine ⟨by decide, by decide⟩

/-- C6 counterexample: with file contents `" export K=1\n"` (leading
space), the delete pass removes nothing — the line does not start with
`export K=` — yet the existence check still finds the substring, so
delete-then-exists returns true, refuting the claim for arbitrary file
contents. -/
theorem claim6_counterexample :
    variableExistsInShellRc
      ((removeVariableFromShellRc (some (" export K=1\n".toList)) "K").1) "K" = true ∧
    (removeVariableFromShellRc (some (" export K=1\n".toList)) "K").1 =
      some (" export K=1\n".toList) := by
  refine ⟨by decide, by decide⟩

/-- C5 counterexample: the line `export K=""x""` exports the value `x`, not
`"x"`: Python's `strip('"')` removes every leading and trailing quote
character, not exactly one matching layer. -/
theorem claim5_counterexample :
    dictLookup
      (exportVariables
        (fsUpdate emptyFS "~/.bashrc" ("export K=".toList ++ [dq, dq, 'x', dq, dq]))
        "Linux" "" none) "K" = some "x" ∧
    ("x" : String) ≠ "\"x\"" := by
  refine ⟨by decide, by decide⟩

/-- C3 counterexample: setting `K` to the value `" x"` (leading space) and
exporting yields `x`, not `" x"`: export strips surrounding whitespace on
read, so the claimed round-trip fails for arbitrary values. -/
theorem claim3_counterexample :
    dictLookup (exportVariables (linuxSetVariable emptyFS "K" " x") "Linux" "" none) "K"
      = some "x" ∧ ("x" : String) ≠ " x" := by
  refine ⟨by decide, by decide⟩

/-- C1 counterexample: with target set `{A:"1", B:"2", C:"3"}`, existing
keys `{A, B}` and explicit overwrite list `"A"`, the apply flow deletes
only `A` but then sets all of `A`, `B` and `C`: `B` is applied (its
`set` call appears in the trace and a fresh `export B=2` line is appended),
refuting the claim that unlisted keys are skipped entirely. -/
theorem claim1_counterexample :
    (applyFlow (fsUpdate emptyFS "~/.bashrc" ("export A=0\nexport B=0\n".toList)) ""
      [("A", "1"), ("B", "2"), ("C", "3")] "n" "A").map Prod.snd =
      some [Op.del "A", Op.set "A" "1", Op.set "B" "2", Op.set "C" "3"] ∧
    Op.set "B" "2" ∈ [Op.del "A", Op.set "A" "1", Op.set "B" "2", Op.set "C" "3"] ∧
    (applyFlow (fsUpdate emptyFS "~/.bashrc" ("export A=0\nexport B=0\n".toList)) ""
      [("A", "1"), ("B", "2"), ("C", "3")] "n" "A").map (fun p => p.1 "~/.bashrc") =
      some (some ("export B=0\n\nexport A=1\nexport B=2\nexport C=3".toList)) := by
  refine ⟨by decide, by decide, by decide⟩

theorem exportVariables_on_file (fs : FS) (platformSystem shellEnv : String)
    (X : List Char) (keys : Option (List String))
    (h : fs (getShellRcFile platformSystem shellEnv) = some X) :
    exportVariables fs platformSystem shellEnv keys = exportFromLines (pyLines X) keys := by
  unfold exportVariables
  rw [h]

/-- C5 (amended): on read the export parser trims surrounding whitespace
and then removes all leading and trailing double-quote characters, followed
by all leading and trailing single-quote characters — not exactly one
matching layer.  For any whitespace-trimmed newline-free value `v` on a
single `export K=v` profile line, the exported value is `stripQuotes v`
(so `export K="hello"` still yields `hello`, but `export K=""x""` yields
`x`, not `"x"`). -/
theorem claim5_export_quote_stripping_amended (fs : FS) (k : String) (v : List Char)
    (hk1 : pyStrip k.toList = k.toList) (hk2 : '=' ∉ k.toList)
    (hk3 : '\n' ∉ k.toList)
    (hv1 : pyStrip v = v) (hv2 : '\n' ∉ v) :
    dictLookup
      (exportVariables (fsUpdate fs "~/.bashrc" (exportPattern k ++ v)) "Linux" "" none) k
      = some ((stripQuotes v).asString) := by
  have hnl : '\n' ∉ exportPattern k ++ v := by
    intro h
    rcases List.mem_append.mp h with h1 | h1
    · exact nl_not_mem_exportPattern k hk3 h1
    · exact hv2 h1
  have hline : pyLines (exportPattern k ++ v) = [exportPattern k ++ v] :=
    pyLines_no_nl _ (List.append_ne_nil_of_left_ne_nil (exportPattern_ne_nil k) _) hnl
  have hfile : (fsUpdate fs "~/.bashrc" (exportPattern k ++ v))
      (getShellRcFile "Linux" "") = some (exportPattern k ++ v) := by
    show fsUpdate fs "~/.bashrc" (exportPattern k ++ v) "~/.bashrc" = _
    simp [fsUpdate]
  rw [exportVariables_on_file _ _ _ _ _ hfile, hline]
  show dictLookup (exportStep none [] (exportPattern k ++ v)) k = some ((stripQuotes v).asString)
  unfold exportStep
  rw [parseExportLine_pattern k v hk1 hk2 hv1]
  simp only [keyAllowed_none, if_pos, dictLookup_insert, if_pos rfl]

/-- Witness for C5 (amended) at the doubly double-quoted value `""x""`. -/
theorem claim5_export_quote_stripping_amended_witness :
    dictLookup
      (exportVariables
        (fsUpdate emptyFS "~/.bashrc" (exportPattern "K" ++ [dq, dq, 'x', dq, dq]))
        "Linux" "" none) "K" = some ((stripQuotes [dq, dq, 'x', dq, dq]).asString) :=
  claim5_export_quote_stripping_amended emptyFS "K" [dq, dq, 'x', dq, dq]
    (by decide) (by decide) (by decide) (by decide) (by decide)

/-- C3 (amended): the set-then-export round-trip `export(None)` contains
`K ↦ V` for the Linux backend, over any prior profile-file state, provided
the key and value survive the line format: the key is whitespace-trimmed
and free of `=` and newlines, the value is whitespace-trimmed, carries no
surrounding quote characters and no newlines.  For the macOS backend the
same holds only when the configured SHELL references `zsh`: its set always
appends to `~/.zshrc`, while export reads the SHELL-selected file. -/
theorem claim3_set_export_roundtrip_amended (fs : FS) (shellEnv : String) (K V : String)
    (hk1 : pyStrip K.toList = K.toList) (hk2 : '=' ∉ K.toList) (hk3 : '\n' ∉ K.toList)
    (hv1 : pyStrip V.toList = V.toList) (hv2 : stripQuotes V.toList = V.toList)
    (hv3 : '\n' ∉ V.toList) :
    dictLookup (exportVariables (linuxSetVariable fs K V) "Linux" shellEnv none) K
      = some V ∧
    (containsSub "zsh".toList shellEnv.toList = true →
      dictLookup (exportVariables (macosSetVariable fs K V) "Darwin" shellEnv none) K
        = some V) := by
  constructor
  · have hfile : (linuxSetVariable fs K V) (getShellRcFile "Linux" shellEnv) =
        some (((fs "~/.bashrc").getD []) ++ '\n' :: (exportPattern K ++ V.toList)) := by
      show linuxSetVariable fs K V "~/.bashrc" = _
      simp [linuxSetVariable, fsUpdate]
    rw [exportVariables_on_file _ _ _ _ _ hfile]
    exact export_after_append _ K V hk1 hk2 hk3 hv1 hv2 hv3
  · intro hzsh
    have hrc : getShellRcFile "Darwin" shellEnv = "~/.zshrc" := by
      unfold getShellRcFile
      rw [if_pos rfl, if_pos hzsh]
    have hfile : (macosSetVariable fs K V) (getShellRcFile "Darwin" shellEnv) =
        some (((fs "~/.zshrc").getD []) ++ '\n' :: (exportPattern K ++ V.toList)) := by
      rw [hrc]
      simp [macosSetVariable, fsUpdate]
    rw [exportVariables_on_file _ _ _ _ _ hfile]
    exact export_after_append _ K V hk1 hk2 hk3 hv1 hv2 hv3

/-- Witness for C3 (amended): a concrete round-trip on both backends. -/
theorem claim3_set_export_roundtrip_amended_witness :
    dictLookup (exportVariables (linuxSetVariable emptyFS "K" "hello") "Linux" "/bin/zsh" none) "K"
      = some "hello" ∧
    dictLookup (exportVariables (macosSetVariable emptyFS "K" "hello") "Darwin" "/bin/zsh" none) "K"
      = some "hello" := by
  have h := claim3_set_export_roundtrip_amended emptyFS "/bin/zsh" "K" "hello"
    (by decide) (by decide) (by decide) (by decide) (by decide) (by decide)
  exact ⟨h.1, h.2 (by decide)⟩

theorem exportFromLines_concat (ls : List (List Char)) (l : List Char)
    (keys : Option (List String)) :
    exportFromLines (ls ++ [l]) keys = exportStep keys (exportFromLines ls keys) l := by
  unfold exportFromLines
  rw [List.foldl_append]
  rfl

theorem dictLookup_exportFromLines_isSome (ls : List (List Char))
    (keys : Option (List String)) (k : String) :
    (dictLookup (exportFromLines ls keys) k).isSome = true ↔
      ∃ l ∈ ls, ∃ v, parseExportLine l = some (k, v) ∧ keyAllowed keys k = true := by
  induction ls using List.reverseRecOn with
  | nil => simp [exportFromLines, dictLookup]
  | append_singleton ls l ih =>
    rw [exportFromLines_concat]
    unfold exportStep
    cases hp : parseExportLine l with
    | none =>
      rw [ih]
      constructor
      · rintro ⟨l2, hl2, hrest⟩
        exact ⟨l2, List.mem_append_left _ hl2, hrest⟩
      · rintro ⟨l2, hl2, v, hparse, hallow⟩
        rcases List.mem_append.mp hl2 with h2 | h2
        · exact ⟨l2, h2, v, hparse, hallow⟩
        · rw [List.mem_singleton.mp h2, hp] at hparse
          exact Option.noConfusion hparse
    | some p =>
      obtain ⟨n, v⟩ := p
      show (dictLookup (if keyAllowed keys n = true then
          dictInsert (exportFromLines ls keys) n v else exportFromLines ls keys) k).isSome
          = true ↔
        ∃ l2 ∈ ls ++ [l], ∃ v2, parseExportLine l2 = some (k, v2) ∧
          keyAllowed keys k = true
      by_cases ha : keyAllowed keys n = true
      · rw [if_pos ha, dictLookup_insert]
        by_cases hkn : n = k
        · subst hkn
          rw [if_pos rfl]
          simp only [Option.isSome_some, true_iff]
          exact ⟨l, List.mem_append_right _ (List.mem_singleton_self l), v, hp, ha⟩
        · rw [if_neg hkn, ih]
          constructor
          · rintro ⟨l2, hl2, hrest⟩
            exact ⟨l2, List.mem_append_left _ hl2, hrest⟩
          · rintro ⟨l2, hl2, v2, hparse, hallow⟩
            rcases List.mem_append.mp hl2 with h2 | h2
            · exact ⟨l2, h2, v2, hparse, hallow⟩
            · rw [List.mem_singleton.mp h2, hp] at hparse
              have := (Prod.mk.injEq _ _ _ _).mp (Option.some_inj.mp hparse)
              exact absurd this.1 hkn
      · rw [if_neg ha, ih]
        constructor
        · rintro ⟨l2, hl2, hrest⟩
          exact ⟨l2, List.mem_append_left _ hl2, hrest⟩
        · rintro ⟨l2, hl2, v2, hparse, hallow⟩
          rcases List.mem_append.mp hl2 with h2 | h2
          · exact ⟨l2, h2, v2, hparse, hallow⟩
          · rw [List.mem_singleton.mp h2, hp] at hparse
            have heq := (Prod.mk.injEq _ _ _ _).mp (Option.some_inj.mp hparse)
            rw [heq.1] at ha
            exact absurd hallow ha

/-- C10: the export loop silently ignores malformed `export` lines — a line
that (after stripping) starts with `export ` but has no `=` in the
remainder contributes nothing, and a name is in the domain of the exported
mapping exactly when some line parses to it as a well-formed
`export NAME=VALUE` line passing the key filter. -/
theorem claim10_export_ignores_malformed (c : List Char)
    (keys : Option (List String)) (k : String) :
    ((dictLookup (exportFromLines (pyLines c) keys) k).isSome = true ↔
      ∃ l ∈ pyLines c, ∃ v, parseExportLine l = some (k, v) ∧
        keyAllowed keys k = true) ∧
    (∀ ls1 ls2 : List (List Char), ∀ mal : List Char,
      leadsWith exportHead (pyStrip mal) = true →
      '=' ∉ (pyStrip mal).drop exportHead.length →
      exportFromLines (ls1 ++ mal :: ls2) keys = exportFromLines (ls1 ++ ls2) keys) := by
  constructor
  · exact dictLookup_exportFromLines_isSome (pyLines c) keys k
  · intro ls1 ls2 mal h1 h2
    have hparse : parseExportLine mal = none := by
      unfold parseExportLine
      rw [if_pos h1, (splitOnceEq_none_iff _).mpr h2]
    unfold exportFromLines
    rw [List.foldl_append, List.foldl_append]
    show List.foldl (exportStep keys)
      (exportStep keys (List.foldl (exportStep keys) [] ls1) mal) ls2 = _
    have hstep : exportStep keys (List.foldl (exportStep keys) [] ls1) mal =
        List.foldl (exportStep keys) [] ls1 := by
      unfold exportStep
      rw [hparse]
    rw [hstep]

/-- Witness for C10: a malformed line `export FOO` contributes nothing and
the domain characterisation holds on a concrete file. -/
theorem claim10_export_ignores_malformed_witness :
    exportFromLines ([] ++ "export FOO".toList :: ["export A=1".toList]) none =
      exportFromLines ([] ++ ["export A=1".toList]) none ∧
    (dictLookup (exportFromLines (pyLines ("export FOO\nexport A=1\n".toList)) none) "A").isSome
      = true := by
  constructor
  · exact (claim10_export_ignores_malformed [] none "A").2 [] ["export A=1".toList]
      ("export FOO".toList) (by decide) (by decide)
  · exact (claim10_export_ignores_malformed ("export FOO\nexport A=1\n".toList) none "A").1.mpr
      ⟨"export A=1\n".toList, by decide, "1", by decide, by decide⟩

theorem count_set_map (envVars : List (String × String)) (p : String × String)
    (hnodup : (envVars.map Prod.fst).Nodup) (hp : p ∈ envVars) :
    (envVars.map (fun q => Op.set q.1 q.2)).count (Op.set p.1 p.2) = 1 := by
  induction envVars with
  | nil => cases hp
  | cons q t ih =>
    rw [List.map_cons, List.count_cons]
    rw [List.map_cons, List.nodup_cons] at hnodup
    rcases List.mem_cons.mp hp with hq | ht
    · subst hq
      have hzero : (t.map (fun q => Op.set q.1 q.2)).count (Op.set p.1 p.2) = 0 := by
        rw [List.count_eq_zero]
        intro hmem
        obtain ⟨r, hr, hre⟩ := List.mem_map.mp hmem
        have hr1 : r.1 = p.1 := (Op.set.inj hre).1
        apply hnodup.1
        rw [← hr1]
        exact List.mem_map_of_mem Prod.fst hr
      rw [hzero]
      simp
    · have hne : (Op.set q.1 q.2 == Op.set p.1 p.2) = false := by
        have h1 : q.1 ≠ p.1 := by
          intro he
          apply hnodup.1
          rw [he]
          exact List.mem_map_of_mem Prod.fst ht
        simp only [beq_eq_false_iff_ne, ne_eq, Op.set.injEq, not_and]
        intro hh
        exact absurd hh h1
      rw [hne, ih hnodup.2 ht]
      simp

/-- C2: in the apply flow, when the conflict report is empty every variable
is applied via `set` and `delete` is never invoked; when it is non-empty
and the caller answers overwrite-all with yes, the trace is exactly the
deletes of the conflicting keys followed by the sets of all variables —
`delete` is invoked exactly for the conflicting keys, each delete precedes
its key's set, and, for a duplicate-free variable set, every variable
receives `set` exactly once. -/
theorem claim2_delete_discipline (fs : FS) (shellEnv : String)
    (envVars : List (String × String)) (ansAll ansChoice : String) :
    (probeExisting fs (getShellRcFile "Linux" shellEnv) envVars = [] →
      (applyFlow fs shellEnv envVars ansAll ansChoice).map Prod.snd =
        some (envVars.map (fun p => Op.set p.1 p.2)) ∧
      ∀ k, Op.del k ∉ envVars.map (fun p => Op.set p.1 p.2)) ∧
    (probeExisting fs (getShellRcFile "Linux" shellEnv) envVars ≠ [] →
      isYes ansAll = true →
      (applyFlow fs shellEnv envVars ansAll ansChoice).map Prod.snd =
        some ((probeExisting fs (getShellRcFile "Linux" shellEnv) envVars).map Op.del ++
          envVars.map (fun p => Op.set p.1 p.2)) ∧
      (∀ k, (Op.del k ∈
          (probeExisting fs (getShellRcFile "Linux" shellEnv) envVars).map Op.del ++
            envVars.map (fun p => Op.set p.1 p.2)) ↔
          k ∈ probeExisting fs (getShellRcFile "Linux" shellEnv) envVars) ∧
      ((envVars.map Prod.fst).Nodup → ∀ p ∈ envVars,
        ((probeExisting fs (getShellRcFile "Linux" shellEnv) envVars).map Op.del ++
          envVars.map (fun q => Op.set q.1 q.2)).count (Op.set p.1 p.2) = 1)) := by
  constructor
  · intro hempty
    constructor
    · unfold applyFlow
      simp only [hempty, List.isEmpty_nil, if_pos]
      rw [Option.map_some']
      rw [runSets_trace envVars (fs, [])]
      rfl
    · intro k hmem
      obtain ⟨p, _, hpe⟩ := List.mem_map.mp hmem
      exact Op.noConfusion hpe
  · intro hne hyes
    have happ : (applyFlow fs shellEnv envVars ansAll ansChoice).map Prod.snd =
        some ((probeExisting fs (getShellRcFile "Linux" shellEnv) envVars).map Op.del ++
          envVars.map (fun p => Op.set p.1 p.2)) := by
      unfold applyFlow
      have hie : (probeExisting fs (getShellRcFile "Linux" shellEnv) envVars).isEmpty
          = false := by
        rw [List.isEmpty_eq_false]
        exact hne
      simp only [hie, Bool.false_eq_true, if_false, if_pos hyes, Option.map_some']
      rw [runSets_trace envVars _, runDeletes_trace _ _ (fs, [])]
      simp
    refine ⟨happ, ?_, ?_⟩
    · intro k
      constructor
      · intro hmem
        rcases List.mem_append.mp hmem with h1 | h1
        · obtain ⟨a, ha, hae⟩ := List.mem_map.mp h1
          rw [← Op.del.inj hae]
          exact ha
        · obtain ⟨p, _, hpe⟩ := List.mem_map.mp h1
          exact Op.noConfusion hpe
      · intro hmem
        exact List.mem_append_left _ (List.mem_map_of_mem Op.del hmem)
    · intro hnodup p hp
      rw [List.count_append]
      have h1 : ((probeExisting fs (getShellRcFile "Linux" shellEnv) envVars).map
          Op.del).count (Op.set p.1 p.2) = 0 := by
        rw [List.count_eq_zero]
        intro hmem
        obtain ⟨a, _, hae⟩ := List.mem_map.mp hmem
        exact Op.noConfusion hae
      rw [h1, count_set_map envVars p hnodup hp]

/-- Witness for C2: concrete no-conflict and overwrite-all runs. -/
theorem claim2_delete_discipline_witness :
    (applyFlow emptyFS "" [("A", "1"), ("B", "2")] "x" "").map Prod.snd =
      some [Op.set "A" "1", Op.set "B" "2"] ∧
    (applyFlow (fsUpdate emptyFS "~/.bashrc" ("export A=0\n".toList)) ""
      [("A", "1"), ("B", "2")] "y" "").map Prod.snd =
      some [Op.del "A", Op.set "A" "1", Op.set "B" "2"] ∧
    ([Op.del "A", Op.set "A" "1", Op.set "B" "2"].count (Op.set "B" "2") = 1) := by
  refine ⟨?_, ?_, ?_⟩
  · exact ((claim2_delete_discipline emptyFS "" [("A", "1"), ("B", "2")] "x" "").1
      (by decide)).1
  · exact ((claim2_delete_discipline (fsUpdate emptyFS "~/.bashrc"
      ("export A=0\n".toList)) "" [("A", "1"), ("B", "2")] "y" "").2
      (by decide) (by decide)).1
  · exact (((claim2_delete_discipline (fsUpdate emptyFS "~/.bashrc"
      ("export A=0\n".toList)) "" [("A", "1"), ("B", "2")] "y" "").2
      (by decide) (by decide)).2.2 (by decide) ("B", "2") (by decide))

/-- C1 (amended): when the operator declines overwrite-all and supplies an
explicit non-empty list of keys, exactly the listed keys are deleted, but
every key in the VariableSet is nonetheless applied via `set` (appended),
including keys not in the list: an unlisted conflicting key keeps its prior
stored entry (no delete) yet still receives a set. -/
theorem claim1_explicit_list_amended (fs : FS) (shellEnv : String)
    (envVars : List (String × String)) (ansAll ansChoice : String)
    (hconf : probeExisting fs (getShellRcFile "Linux" shellEnv) envVars ≠ [])
    (hno : isYes ansAll = false)
    (hnotall : pyLower ansChoice.toList ≠ "all".toList)
    (hnonempty : parseOverwriteChoice ansChoice ≠ []) :
    (applyFlow fs shellEnv envVars ansAll ansChoice).map Prod.snd =
      some ((parseOverwriteChoice ansChoice).map Op.del ++
        envVars.map (fun p => Op.set p.1 p.2)) ∧
    (∀ k, (Op.del k ∈ (parseOverwriteChoice ansChoice).map Op.del ++
        envVars.map (fun p => Op.set p.1 p.2)) ↔ k ∈ parseOverwriteChoice ansChoice) ∧
    (∀ p ∈ envVars, Op.set p.1 p.2 ∈ (parseOverwriteChoice ansChoice).map Op.del ++
        envVars.map (fun q => Op.set q.1 q.2)) := by
  refine ⟨?_, ?_, ?_⟩
  · unfold applyFlow
    have hie : (probeExisting fs (getShellRcFile "Linux" shellEnv) envVars).isEmpty
        = false := by
      rw [List.isEmpty_eq_false]
      exact hconf
    have hie2 : (parseOverwriteChoice ansChoice).isEmpty = false := by
      rw [List.isEmpty_eq_false]
      exact hnonempty
    simp only [hie, Bool.false_eq_true, if_false, hno, if_neg hnotall, hie2,
      Option.map_some']
    rw [runSets_trace envVars _, runDeletes_trace _ _ (fs, [])]
    simp
  · intro k
    constructor
    · intro hmem
      rcases List.mem_append.mp hmem with h1 | h1
      · obtain ⟨a, ha, hae⟩ := List.mem_map.mp h1
        rw [← Op.del.inj hae]
        exact ha
      · obtain ⟨p, _, hpe⟩ := List.mem_map.mp h1
        exact Op.noConfusion hpe
    · intro hmem
      exact List.mem_append_left _ (List.mem_map_of_mem Op.del hmem)
  · intro p hp
    exact List.mem_append_right _ (List.mem_map_of_mem _ hp)

/-- Witness for C1 (amended) at the claim's concrete scenario. -/
theorem claim1_explicit_list_amended_witness :
    (applyFlow (fsUpdate emptyFS "~/.bashrc" ("export A=0\nexport B=0\n".toList)) ""
      [("A", "1"), ("B", "2"), ("C", "3")] "n" "A").map Prod.snd =
      some ((parseOverwriteChoice "A").map Op.del ++
        ([("A", "1"), ("B", "2"), ("C", "3")] : List (String × String)).map
          (fun p => Op.set p.1 p.2)) :=
  (claim1_explicit_list_amended
    (fsUpdate emptyFS "~/.bashrc" ("export A=0\nexport B=0\n".toList)) ""
    [("A", "1"), ("B", "2"), ("C", "3")] "n" "A"
    (by decide) (by decide) (by decide) (by decide)).1

end EnvSync
